import Mathlib

/-!
Shallow embedding of the factorized embedding adapter
(`tltorch/factorized_layers/factorized_embedding.py`) together with the pieces
of its tensor engine that the adapter's contract depends on.  Parts of the
repository that are not present in the source tree (`suggest_shape` from
`tltorch.factorized_layers.utils` and the `TensorizedTensor` engine) are
modelled from the specification; each such definition carries a doc comment
starting with `Modelled from the spec:`.

Arrays are modelled as a shape (list of extents) together with a flat
row-major index function; machine integers are `Nat`, float entries are `ℚ`
(exact arithmetic), and the standard deviation handed to the in-place
normal initializer is recorded symbolically and interpreted in `ℝ`.
-/

/-! ### Definitions -/

/-- Modelled from the spec: bounded upward search for the smallest `k` with
`n ≤ k ^ d`, with `fuel` steps remaining. -/
def irootGo (n d : ℕ) : ℕ → ℕ → ℕ
  | k, 0 => k
  | k, fuel + 1 => if n ≤ k ^ d then k else irootGo n d (k + 1) fuel

/-- Modelled from the spec: the `d`-th root of `n` rounded up, i.e. the
smallest `k` with `n ≤ k ^ d` (for `1 ≤ n` and `1 ≤ d`). -/
def iroot (n d : ℕ) : ℕ := irootGo n d 0 n

/-- Ceiling division on `ℕ`. -/
def ceil_div (a b : ℕ) : ℕ := (a + b - 1) / b

/-- Modelled from the spec: the balancing pass of the shape suggester.  Each
factor in turn is replaced by the smallest positive value that keeps the
product of all factors at least `n`; `acc` holds the already-processed factors
in reverse order. -/
def shrinkGo (n : ℕ) : List ℕ → List ℕ → List ℕ
  | acc, [] => acc.reverse
  | acc, _ :: rest => shrinkGo n (max 1 (ceil_div n (acc.prod * rest.prod)) :: acc) rest

/-- Modelled from the spec: `suggest_shape` lives in
`tltorch.factorized_layers.utils`, which is not part of the source tree.  Per
the spec it deterministically returns `d` near-equal positive factors whose
product is at least `n`, padding upward when `n` admits no balanced exact
factorization.  We start from `d` copies of the rounded-up `d`-th root and
greedily shrink each factor while the product stays at least `n`; this
reproduces the spec's examples (`suggest_shape 1000 3 = [10, 10, 10]` and
`suggest_shape 37 2 = [6, 7]`, product `42`). -/
def suggest_shape (n d : ℕ) : List ℕ := shrinkGo n [] (List.replicate d (iroot n d))

/-- Mixed-radix decomposition of a flat row-major index over extents `dims`. -/
def unravel : List ℕ → ℕ → List ℕ
  | [], _ => []
  | _ :: ds, i => i / ds.prod :: unravel ds (i % ds.prod)

/-- Modelled from the spec: one core of a block tensor-train (TT-matrix)
factorization.  The core carries an input rank `rIn`, a row-mode extent `m`, a
column-mode extent `n`, an output rank `rOut`, and its entries as a function of
`(input rank index, row index, column index, output rank index)`. -/
structure TTCore where
  rIn : ℕ
  m : ℕ
  n : ℕ
  rOut : ℕ
  entry : ℕ → ℕ → ℕ → ℕ → ℚ

/-- Modelled from the spec: a BlockTT tensorized matrix is a chain of cores,
one per paired (row-mode, column-mode); boundary ranks are 1. -/
structure BlockTT where
  cores : List TTCore

/-- Entry of the matrix chain product of the cores at row multi-index `is` and
column multi-index `js`, between rank indices `a` and `b`. -/
def ttChain : List TTCore → List ℕ → List ℕ → ℕ → ℕ → ℚ
  | [], _, _, a, b => if a = b then 1 else 0
  | c :: cs, i :: is, j :: js, a, b =>
      ∑ g ∈ Finset.range c.rOut, c.entry a i j g * ttChain cs is js g b
  | _ :: _, [], _, _, _ => 0
  | _ :: _, _ :: _, [], _, _ => 0

/-- Modelled from the spec: chain contraction of the cores sliced at the row
multi-index `is`, producing the output vector entry at flat column index `j`
(row-major over the column modes), between rank indices `a` and `b`. -/
def ttSliceChain : List TTCore → List ℕ → ℕ → ℕ → ℕ → ℚ
  | [], _, j, a, b => if a = b ∧ j = 0 then 1 else 0
  | c :: cs, i :: is, j, a, b =>
      ∑ g ∈ Finset.range c.rOut,
        c.entry a i (j / (cs.map TTCore.n).prod) g *
          ttSliceChain cs is (j % (cs.map TTCore.n).prod) g b
  | _ :: _, [], _, _, _ => 0

def BlockTT.rowDims (t : BlockTT) : List ℕ := t.cores.map TTCore.m

def BlockTT.colDims (t : BlockTT) : List ℕ := t.cores.map TTCore.n

def BlockTT.rowProd (t : BlockTT) : ℕ := t.rowDims.prod

def BlockTT.colProd (t : BlockTT) : ℕ := t.colDims.prod

/-- Modelled from the spec: reconstruction (densification) of the full table
entry at flat row index `i` and flat column index `j`: both indices are
mixed-radix decomposed and the cores are chain-contracted. -/
def BlockTT.densify (t : BlockTT) (i j : ℕ) : ℚ :=
  ttChain t.cores (unravel t.rowDims i) (unravel t.colDims j) 0 0

/-- Modelled from the spec: indexed row slicing.  For the `b`-th requested flat
row index, the per-mode cores selected by the mixed-radix multi-index are
contracted into a chain product, yielding one dense output vector per index. -/
def BlockTT.indexRows (t : BlockTT) (idx : ℕ → ℕ) (b j : ℕ) : ℚ :=
  ttSliceChain t.cores (unravel t.rowDims (idx b)) j 0 0

/-- Modelled from the spec: one CP factor: a `dim × rank` matrix given by its
extent and entry function. -/
structure CPFactor where
  dim : ℕ
  entry : ℕ → ℕ → ℚ

/-- Modelled from the spec: a CP tensorized matrix: one 2-index factor per
mode, all sharing a common rank. -/
structure CPT where
  rank : ℕ
  rowFactors : List CPFactor
  colFactors : List CPFactor

/-- Product over modes of the factor entries at multi-index `is` and rank
component `r`. -/
def cpProd : List CPFactor → List ℕ → ℕ → ℚ
  | [], _, _ => 1
  | f :: fs, i :: is, r => f.entry i r * cpProd fs is r
  | _ :: _, [], _ => 1

def CPT.rowDims (t : CPT) : List ℕ := t.rowFactors.map CPFactor.dim

def CPT.colDims (t : CPT) : List ℕ := t.colFactors.map CPFactor.dim

def CPT.rowProd (t : CPT) : ℕ := t.rowDims.prod

def CPT.colProd (t : CPT) : ℕ := t.colDims.prod

/-- Modelled from the spec: CP reconstruction of the table entry at flat row
index `i` and flat column index `j`. -/
def CPT.densify (t : CPT) (i j : ℕ) : ℚ :=
  ∑ r ∈ Finset.range t.rank,
    cpProd t.rowFactors (unravel t.rowDims i) r *
      cpProd t.colFactors (unravel t.colDims j) r

/-- Modelled from the spec: the smaller factorized object produced by indexing
a CP tensor: a batch factor (one rank-weighted row per requested index)
together with the untouched column factors.  It must be densified by a
caller-visible `to_matrix` step. -/
structure CPIndexed where
  rank : ℕ
  batch : ℕ → ℕ → ℚ
  colFactors : List CPFactor

/-- Modelled from the spec: indexed row slicing for CP gathers the per-mode
factor rows selected by the mixed-radix multi-index and multiplies them
elementwise across modes. -/
def CPT.indexRows (t : CPT) (idx : ℕ → ℕ) : CPIndexed :=
  { rank := t.rank
    batch := fun b r => cpProd t.rowFactors (unravel t.rowDims (idx b)) r
    colFactors := t.colFactors }

/-- Modelled from the spec: densification of an indexed CP object into a dense
2D array (rows × flattened column dimension). -/
def CPIndexed.to_matrix (x : CPIndexed) (b j : ℕ) : ℚ :=
  ∑ r ∈ Finset.range x.rank,
    x.batch b r * cpProd x.colFactors (unravel (x.colFactors.map CPFactor.dim) j) r

/-- Modelled from the spec: one Tucker factor: a `dim × rank` matrix for one
mode, given by its extents and entry function. -/
structure TuckerFactor where
  dim : ℕ
  rank : ℕ
  entry : ℕ → ℕ → ℚ

/-- Modelled from the spec: a Tucker tensorized matrix: one 2-index factor per
mode plus one core tensor.  The core is stored flat, row-major over the
per-mode ranks (row-mode ranks first, then column-mode ranks). -/
structure TuckerT where
  rowFactors : List TuckerFactor
  colFactors : List TuckerFactor
  core : ℕ → ℚ

/-- Product over modes of the factor entries at mode indices `is` and core
rank indices `ss`. -/
def tuckProd : List TuckerFactor → List ℕ → List ℕ → ℚ
  | [], _, _ => 1
  | f :: fs, i :: is, s :: ss => f.entry i s * tuckProd fs is ss
  | _ :: _, _, _ => 1

def TuckerT.rowDims (t : TuckerT) : List ℕ := t.rowFactors.map TuckerFactor.dim

def TuckerT.colDims (t : TuckerT) : List ℕ := t.colFactors.map TuckerFactor.dim

def TuckerT.rowRanks (t : TuckerT) : List ℕ := t.rowFactors.map TuckerFactor.rank

def TuckerT.colRanks (t : TuckerT) : List ℕ := t.colFactors.map TuckerFactor.rank

def TuckerT.rowProd (t : TuckerT) : ℕ := t.rowDims.prod

def TuckerT.colProd (t : TuckerT) : ℕ := t.colDims.prod

/-- Modelled from the spec: Tucker reconstruction of the table entry at flat
row index `i` and flat column index `j`: the core is contracted against every
factor row selected by the mixed-radix multi-indices. -/
def TuckerT.densify (t : TuckerT) (i j : ℕ) : ℚ :=
  ∑ s ∈ Finset.range ((t.rowRanks ++ t.colRanks).prod),
    t.core s *
      tuckProd (t.rowFactors ++ t.colFactors)
        (unravel t.rowDims i ++ unravel t.colDims j)
        (unravel (t.rowRanks ++ t.colRanks) s)

/-- Modelled from the spec: the row-factor rows selected by the `b`-th
requested index are contracted into the core, leaving a smaller core indexed
by the column-mode ranks only. -/
def TuckerT.coreRowContract (t : TuckerT) (idx : ℕ → ℕ) (b sc : ℕ) : ℚ :=
  ∑ sr ∈ Finset.range t.rowRanks.prod,
    t.core (sr * t.colRanks.prod + sc) *
      tuckProd t.rowFactors (unravel t.rowDims (idx b)) (unravel t.rowRanks sr)

/-- Modelled from the spec: the higher-dimensional tensor produced by indexing
a Tucker tensor: entry for the `b`-th requested index at column multi-index
`js`. -/
def TuckerT.indexRaw (t : TuckerT) (idx : ℕ → ℕ) (b : ℕ) (js : List ℕ) : ℚ :=
  ∑ sc ∈ Finset.range t.colRanks.prod,
    t.coreRowContract idx b sc * tuckProd t.colFactors js (unravel t.colRanks sc)

/-- Modelled from the spec: the caller-side contiguous reshape of the indexed
Tucker tensor into a 2D array: one row per requested index, columns flattened
row-major. -/
def TuckerT.indexRowsDense (t : TuckerT) (idx : ℕ → ℕ) (b j : ℕ) : ℚ :=
  t.indexRaw idx b (unravel t.colDims j)

/-- Modelled from the spec: the tagged union of the supported factorization
schemes. -/
inductive Weight where
  | btt : BlockTT → Weight
  | cp : CPT → Weight
  | tuck : TuckerT → Weight

def Weight.rowProd : Weight → ℕ
  | .btt t => t.rowProd
  | .cp t => t.rowProd
  | .tuck t => t.rowProd

def Weight.colProd : Weight → ℕ
  | .btt t => t.colProd
  | .cp t => t.colProd
  | .tuck t => t.colProd

/-- Modelled from the spec: full reconstruction of the logical table, entry at
flat row `i` and flat column `j`. -/
def Weight.densify : Weight → ℕ → ℕ → ℚ
  | .btt t => t.densify
  | .cp t => t.densify
  | .tuck t => t.densify

/-- The dense 2D result of `self.weight[input, :]` followed by the
scheme-specific post-processing done in `FactorizedEmbedding.forward`
(lines 97-105 of the source): `to_matrix` for CP, the contiguous reshape to
`(len(input), -1)` for Tucker, and nothing for BlockTT. -/
def Weight.slice2D : Weight → (ℕ → ℕ) → ℕ → ℕ → ℚ
  | .btt t, idx => t.indexRows idx
  | .cp t, idx => (t.indexRows idx).to_matrix
  | .tuck t, idx => t.indexRowsDense idx

/-- The state stored on a `FactorizedEmbedding` by `__init__` (after the
auto-reshape / validation logic has run): the possibly updated
`num_embeddings` and `embedding_dim`, the tensorized shape pair, and the
factorization name. -/
structure EmbedConfig where
  num_embeddings : ℕ
  embedding_dim : ℕ
  tensorized_num_embeddings : List ℕ
  tensorized_embedding_dim : List ℕ
  factorization : String

/-- The reshape-count argument `d`: the source accepts either an int (then
expanded to a pair) or a pair. -/
def expand_d : ℕ ⊕ ℕ × ℕ → ℕ × ℕ
  | Sum.inl k => (k, k)
  | Sum.inr p => p

/-- The validation and shape-resolution logic of `FactorizedEmbedding.__init__`
(lines 40-70 of the source).  With `auto_reshape` both tensorized shapes must
be omitted (else `ValueError`), and the stored sizes become the products of
the suggested shapes; without it both shapes must be present with products
exactly matching the requested sizes (else `ValueError`; an omitted shape
fails the same check through the bare `except:` and raises the same error). -/
def FactorizedEmbedding.init (num_embeddings embedding_dim : ℕ) (auto_reshape : Bool)
    (d : ℕ ⊕ ℕ × ℕ) (tne ted : Option (List ℕ)) (factorization : String) :
    Except String EmbedConfig :=
  if auto_reshape then
    match tne, ted with
    | none, none =>
        let p := expand_d d
        let tne2 := suggest_shape num_embeddings p.1
        let ted2 := suggest_shape embedding_dim p.2
        Except.ok ⟨tne2.prod, ted2.prod, tne2, ted2, factorization⟩
    | _, _ => Except.error "Automated factorization enabled but tensor dimensions provided"
  else
    match tne, ted with
    | some l1, some l2 =>
        if l1.prod = num_embeddings ∧ l2.prod = embedding_dim then
          Except.ok ⟨num_embeddings, embedding_dim, l1, l2, factorization⟩
        else Except.error "Must provide appropriate reshaping dimensions"
    | _, _ => Except.error "Must provide appropriate reshaping dimensions"

/-- The arguments the adapter passes to the in-place `normal_` initializer:
the mean, and the radicand `x` such that the standard deviation is
`1 / Real.sqrt x`. -/
structure NormalArgs where
  mean : ℚ
  stdRadicand : ℕ

/-- Interpretation in `ℝ` of the recorded standard deviation. -/
noncomputable def NormalArgs.std (c : NormalArgs) : ℝ := 1 / Real.sqrt c.stdRadicand

/-- `FactorizedEmbedding.reset_parameters` (lines 83-88 of the source):
`target_stddev = 1 / np.sqrt(3 * self.num_embeddings)` and then
`self.weight.normal_(0, target_stddev)`.  We record the call symbolically. -/
def reset_parameters (cfg : EmbedConfig) : NormalArgs := ⟨0, 3 * cfg.num_embeddings⟩

/-- Modelled from the spec: padding of the shorter mode group with singleton
modes so that BlockTT can pair row and column modes one core per mode. -/
def padTo (l : List ℕ) (k : ℕ) : List ℕ := l ++ List.replicate (k - l.length) 1

/-- Modelled from the spec: allocate the BlockTT cores for paired
(row, column) extents `ps`, with interior rank `r`, boundary ranks 1, and
input rank `rin` for the next core. -/
def mkCores (r : ℕ) : ℕ → List (ℕ × ℕ) → List TTCore
  | _, [] => []
  | rin, [p] => [⟨rin, p.1, p.2, 1, fun _ _ _ _ => 0⟩]
  | rin, p :: q :: rest => ⟨rin, p.1, p.2, r, fun _ _ _ _ => 0⟩ :: mkCores r r (q :: rest)

/-- Modelled from the spec: BlockTT allocation for the tensorized shape pair,
groups of unequal length being padded with singleton modes. -/
def newBlockTT (rows cols : List ℕ) (r : ℕ) : BlockTT :=
  ⟨mkCores r 1 (List.zip (padTo rows (max rows.length cols.length))
      (padTo cols (max rows.length cols.length)))⟩

/-- Modelled from the spec: CP allocation — one `dim × rank` factor per mode
with a shared rank. -/
def newCP (rows cols : List ℕ) (r : ℕ) : CPT :=
  ⟨r, rows.map (fun m => ⟨m, fun _ _ => 0⟩), cols.map (fun m => ⟨m, fun _ _ => 0⟩)⟩

/-- Modelled from the spec: Tucker allocation — one `dim × rank` factor per
mode plus a core tensor over the per-mode ranks. -/
def newTucker (rows cols : List ℕ) (r : ℕ) : TuckerT :=
  ⟨rows.map (fun m => ⟨m, r, fun _ _ => 0⟩), cols.map (fun m => ⟨m, r, fun _ _ => 0⟩),
    fun _ => 0⟩

/-- Modelled from the spec: `TensorizedTensor.new(tensor_shape, rank,
factorization)` dispatches on the factorization name and allocates the factor
arrays for that scheme; an unknown name is rejected. -/
def TensorizedTensor.new (rows cols : List ℕ) (factorization : String) (r : ℕ) :
    Except String Weight :=
  if factorization = "CP" then Except.ok (Weight.cp (newCP rows cols r))
  else if factorization = "Tucker" then Except.ok (Weight.tuck (newTucker rows cols r))
  else if factorization = "blocktt" then Except.ok (Weight.btt (newBlockTT rows cols r))
  else Except.error ("Unsupported factorization " ++ factorization)

/-- A constructed `FactorizedEmbedding`: the stored configuration, the owned
factorized weight, and the `normal_` call made by `reset_parameters` during
construction. -/
structure Adapter where
  cfg : EmbedConfig
  weight : Weight
  initCall : NormalArgs

/-- `FactorizedEmbedding.__init__` end to end: validate/resolve shapes, build
the owned `TensorizedTensor`, and call `reset_parameters`. -/
def construct (num_embeddings embedding_dim : ℕ) (auto_reshape : Bool)
    (d : ℕ ⊕ ℕ × ℕ) (tne ted : Option (List ℕ)) (factorization : String) (rank : ℕ) :
    Except String Adapter :=
  match FactorizedEmbedding.init num_embeddings embedding_dim auto_reshape d tne ted
      factorization with
  | .error e => .error e
  | .ok cfg =>
    match TensorizedTensor.new cfg.tensorized_num_embeddings cfg.tensorized_embedding_dim
        factorization rank with
    | .error e => .error e
    | .ok w => .ok ⟨cfg, w, reset_parameters cfg⟩

/-- An array: a shape together with flat row-major contents. -/
abbrev NDArray := List ℕ × (ℕ → ℚ)

/-- `torch.Tensor.view`: succeeds only when the element count matches, and
does not move data. -/
def view (arr : NDArray) (shape2 : List ℕ) : Option NDArray :=
  if arr.1.prod = shape2.prod then some (shape2, arr.2) else none

/-- `FactorizedEmbedding.forward` (lines 90-108 of the source): record the
output shape `(*input.shape, embedding_dim)`, flatten the indices, slice the
weight with the scheme-specific post-processing, and view the dense 2D result
into the output shape.  The source dispatches the post-processing on the
stored factorization string, which `TensorizedTensor.new` ties to the weight
variant; here the dispatch is on the variant. -/
def forward (cfg : EmbedConfig) (w : Weight) (inputShape : List ℕ) (input : ℕ → ℕ) :
    Option NDArray :=
  view ([inputShape.prod, w.colProd],
        fun k => w.slice2D input (k / w.colProd) (k % w.colProd))
       (inputShape ++ [cfg.embedding_dim])

/-- A dense `torch.nn.Embedding` to convert from: its table shape and data. -/
structure EmbeddingLayer where
  num_embeddings : ℕ
  embedding_dim : ℕ
  data : ℕ → ℕ → ℚ

/-- The result of `FactorizedEmbedding.from_embedding`: the new adapter and,
when `decompose_weights` is set, the recorded `init_from_matrix` call on the
owned tensor (the dense table data and the decomposition options); otherwise
the factors are randomly re-initialized through `reset_parameters`. -/
structure FromEmbeddingResult where
  adapter : Adapter
  decomposeCall : Option ((ℕ → ℕ → ℚ) × List (String × ℚ))

/-- `FactorizedEmbedding.from_embedding` (lines 110-148 of the source): read
the dense table's shape, construct an adapter for it (extra constructor
arguments pass through), then either decompose the dense weights into the new
adapter's tensor or random-initialize. -/
def FactorizedEmbedding.from_embedding (layer : EmbeddingLayer) (rank : ℕ)
    (factorization : String) (decompose_weights auto_reshape : Bool)
    (decomposition_kwargs : List (String × ℚ))
    (d : ℕ ⊕ ℕ × ℕ) (tne ted : Option (List ℕ)) :
    Except String FromEmbeddingResult :=
  match construct layer.num_embeddings layer.embedding_dim auto_reshape d tne ted
      factorization rank with
  | .error e => .error e
  | .ok a =>
      if decompose_weights then
        .ok ⟨a, some (layer.data, decomposition_kwargs)⟩
      else
        .ok ⟨{ a with initCall := reset_parameters a.cfg }, none⟩

def defaultAdapter : Adapter :=
  ⟨⟨0, 0, [], [], ""⟩, Weight.btt ⟨[]⟩, ⟨0, 0⟩⟩

def adapterC1 : Adapter :=
  (construct 1000 64 true (Sum.inr (3, 2)) none none "blocktt" 4).toOption.getD defaultAdapter

def adapterC6 : Adapter :=
  (construct 8 4 true (Sum.inl 2) none none "blocktt" 2).toOption.getD defaultAdapter

def adapterC9 : Adapter :=
  (construct 37 10 true (Sum.inr (3, 2)) none none "blocktt" 2).toOption.getD defaultAdapter

def layerC7 : EmbeddingLayer := ⟨20, 6, fun i j => (i : ℚ) + j⟩

def resultC7 : FromEmbeddingResult :=
  (FactorizedEmbedding.from_embedding layerC7 4 "CP" true false [("tol", 1/2)]
      (Sum.inl 2) (some [4, 5]) (some [2, 3])).toOption.getD ⟨defaultAdapter, none⟩

def weightC8 : Weight :=
  Weight.btt ⟨[⟨1, 2, 2, 2, fun a i j b2 => (a : ℚ) + i + 2 * j + b2⟩,
               ⟨2, 2, 2, 1, fun a i j b2 => (a : ℚ) * 3 + i + j + b2⟩]⟩

/-! ### Lemmas and claim theorems -/

lemma irootGo_pow_ge (n d : ℕ) : ∀ fuel k, n ≤ (k + fuel) ^ d → n ≤ irootGo n d k fuel ^ d := by
  intro fuel
  induction fuel with
  | zero => intro k h; simpa [irootGo] using h
  | succ fuel ih =>
    intro k h
    by_cases hk : n ≤ k ^ d
    · simp [irootGo, hk]
    · simp only [irootGo, hk, if_false]
      refine ih (k + 1) ?_
      have he : k + 1 + fuel = k + (fuel + 1) := by omega
      rw [he]
      exact h

lemma iroot_pow_ge (n d : ℕ) (hd : 1 ≤ d) : n ≤ iroot n d ^ d := by
  have h := irootGo_pow_ge n d n 0 (by simpa using Nat.le_self_pow (by omega) n)
  simpa [iroot] using h

lemma iroot_pos (n d : ℕ) (hn : 1 ≤ n) (hd : 1 ≤ d) : 1 ≤ iroot n d := by
  by_contra h
  push_neg at h
  have h0 : iroot n d = 0 := by omega
  have h1 := iroot_pow_ge n d hd
  rw [h0, zero_pow (by omega : d ≠ 0)] at h1
  omega

lemma ceil_div_mul_ge (n b : ℕ) (hb : 0 < b) : n ≤ ceil_div n b * b := by
  unfold ceil_div
  have h1 : n + b - 1 < ((n + b - 1) / b + 1) * b :=
    (Nat.div_lt_iff_lt_mul hb).mp (Nat.lt_succ_self _)
  have h2 : n + b - 1 < (n + b - 1) / b * b + b := by
    rw [add_mul, one_mul] at h1; exact h1
  set t := (n + b - 1) / b * b with ht
  omega

lemma one_le_list_prod {l : List ℕ} (h : ∀ x ∈ l, 1 ≤ x) : 1 ≤ l.prod := by
  induction l with
  | nil => simp
  | cons x xs ih =>
    rw [List.prod_cons]
    have h1 := h x (by simp)
    have h2 := ih (fun y hy => h y (by simp [hy]))
    simpa using Nat.mul_le_mul h1 h2

lemma shrinkGo_length (n : ℕ) :
    ∀ rest acc, (shrinkGo n acc rest).length = acc.length + rest.length := by
  intro rest
  induction rest with
  | nil => intro acc; simp [shrinkGo]
  | cons x rest ih =>
    intro acc
    simp only [shrinkGo]
    rw [ih]
    simp
    omega

lemma shrinkGo_pos (n : ℕ) :
    ∀ rest acc, (∀ x ∈ acc, 1 ≤ x) → ∀ y ∈ shrinkGo n acc rest, 1 ≤ y := by
  intro rest
  induction rest with
  | nil =>
    intro acc hacc y hy
    simp only [shrinkGo, List.mem_reverse] at hy
    exact hacc y hy
  | cons x rest ih =>
    intro acc hacc y hy
    simp only [shrinkGo] at hy
    refine ih _ ?_ y hy
    intro z hz
    rcases List.mem_cons.mp hz with h | h
    · rw [h]; exact le_max_left _ _
    · exact hacc z h

lemma shrinkGo_prod_ge (n : ℕ) :
    ∀ rest acc, rest ≠ [] → (∀ x ∈ acc, 1 ≤ x) → n ≤ (shrinkGo n acc rest).prod := by
  intro rest
  induction rest with
  | nil => intro acc h; exact absurd rfl h
  | cons x rest ih =>
    intro acc _ hacc
    simp only [shrinkGo]
    cases rest with
    | nil =>
      simp only [shrinkGo, List.prod_reverse, List.prod_cons, List.prod_nil, mul_one]
      have hP : 0 < acc.prod := one_le_list_prod hacc
      calc n ≤ ceil_div n acc.prod * acc.prod := ceil_div_mul_ge n acc.prod hP
        _ ≤ max 1 (ceil_div n acc.prod) * acc.prod :=
            Nat.mul_le_mul_right _ (le_max_right _ _)
    | cons z rest2 =>
      refine ih _ (by simp) ?_
      intro w hw
      rcases List.mem_cons.mp hw with h | h
      · rw [h]; exact le_max_left _ _
      · exact hacc w h

/-- C4: for all positive `n` and `d`, `suggest_shape n d` returns a sequence of
exactly `d` positive integers whose product is at least `n`; being a pure Lean
function it is deterministic across repeated calls.  The spec's examples are
included: `suggest_shape 1000 3` yields `[10, 10, 10]` with product exactly
`1000`, and `suggest_shape 37 2` yields the two near-equal factors `[6, 7]`
with product `42 ≥ 37`. -/
theorem suggest_shape_spec (n d : ℕ) (_hn : 1 ≤ n) (hd : 1 ≤ d) :
    (suggest_shape n d).length = d ∧
    (∀ x ∈ suggest_shape n d, 1 ≤ x) ∧
    n ≤ (suggest_shape n d).prod ∧
    suggest_shape 1000 3 = [10, 10, 10] ∧
    (suggest_shape 1000 3).prod = 1000 ∧
    suggest_shape 37 2 = [6, 7] ∧
    37 ≤ (suggest_shape 37 2).prod := by
  refine ⟨?_, ?_, ?_, by decide, by decide, by decide, by decide⟩
  · unfold suggest_shape
    rw [shrinkGo_length]
    simp
  · intro x hx
    exact shrinkGo_pos n _ [] (by simp) x hx
  · refine shrinkGo_prod_ge n _ [] ?_ (by simp)
    simp only [ne_eq, List.replicate_eq_nil_iff]
    omega

/-- Witness for C4 at the concrete input `n = 37`, `d = 2`. -/
theorem suggest_shape_spec_witness :
    (1 ≤ 37 ∧ 1 ≤ 2) ∧
    (suggest_shape 37 2).length = 2 ∧ 37 ≤ (suggest_shape 37 2).prod :=
  ⟨⟨by decide, by decide⟩,
    (suggest_shape_spec 37 2 (by decide) (by decide)).1,
    (suggest_shape_spec 37 2 (by decide) (by decide)).2.2.1⟩

lemma unravel_length (ds : List ℕ) (i : ℕ) : (unravel ds i).length = ds.length := by
  induction ds generalizing i with
  | nil => simp [unravel]
  | cons d ds ih => simp [unravel, ih]

lemma unravel_append (rs cs : List ℕ) (x y : ℕ) (hx : x < rs.prod) (hy : y < cs.prod) :
    unravel (rs ++ cs) (x * cs.prod + y) = unravel rs x ++ unravel cs y := by
  induction rs generalizing x with
  | nil =>
    have hx0 : x = 0 := by simpa using hx
    subst hx0
    simp [unravel]
  | cons r rs ih =>
    have hC : 0 < cs.prod := by
      rcases Nat.eq_zero_or_pos cs.prod with h | h
      · omega
      · exact h
    have hP : 0 < rs.prod := by
      rcases Nat.eq_zero_or_pos rs.prod with h | h
      · rw [List.prod_cons, h, Nat.mul_zero] at hx; omega
      · exact h
    have hxqv : rs.prod * (x / rs.prod) + x % rs.prod = x := Nat.div_add_mod x rs.prod
    have hvlt : x % rs.prod < rs.prod := Nat.mod_lt _ hP
    have hw : x % rs.prod * cs.prod + y < rs.prod * cs.prod := by
      have h1 : (x % rs.prod + 1) * cs.prod ≤ rs.prod * cs.prod :=
        Nat.mul_le_mul_right _ hvlt
      rw [add_mul, one_mul] at h1
      omega
    have hsplit : x * cs.prod + y =
        rs.prod * cs.prod * (x / rs.prod) + (x % rs.prod * cs.prod + y) := by
      conv_lhs => rw [← hxqv]
      ring
    have hhead : (x * cs.prod + y) / ((rs ++ cs).prod) = x / rs.prod := by
      rw [List.prod_append, hsplit, Nat.mul_add_div (Nat.mul_pos hP hC),
        Nat.div_eq_of_lt hw, Nat.add_zero]
    have hmod : (x * cs.prod + y) % ((rs ++ cs).prod) = x % rs.prod * cs.prod + y := by
      rw [List.prod_append, hsplit, Nat.mul_add_mod, Nat.mod_eq_of_lt hw]
    calc unravel ((r :: rs) ++ cs) (x * cs.prod + y)
        = (x * cs.prod + y) / ((rs ++ cs).prod) ::
            unravel (rs ++ cs) ((x * cs.prod + y) % ((rs ++ cs).prod)) := rfl
      _ = x / rs.prod :: unravel (rs ++ cs) (x % rs.prod * cs.prod + y) := by
            rw [hhead, hmod]
      _ = x / rs.prod :: (unravel rs (x % rs.prod) ++ unravel cs y) := by
            rw [ih (x % rs.prod) hvlt]
      _ = unravel (r :: rs) x ++ unravel cs y := rfl

lemma sum_range_mul (a b : ℕ) (f : ℕ → ℚ) :
    ∑ s ∈ Finset.range (a * b), f s =
      ∑ x ∈ Finset.range a, ∑ y ∈ Finset.range b, f (x * b + y) := by
  induction a with
  | zero => simp
  | succ a ih =>
    rw [Nat.succ_mul, Finset.sum_range_add, ih, Finset.sum_range_succ]

lemma ttSliceChain_eq (cs : List TTCore) :
    ∀ (is : List ℕ) (j a b : ℕ), j < (cs.map TTCore.n).prod →
      ttSliceChain cs is j a b = ttChain cs is (unravel (cs.map TTCore.n) j) a b := by
  induction cs with
  | nil =>
    intro is j a b hj
    have hj0 : j = 0 := by simpa using hj
    subst hj0
    simp [ttSliceChain, ttChain, unravel]
  | cons c cs ih =>
    intro is j a b hj
    cases is with
    | nil => simp [ttSliceChain, ttChain, unravel]
    | cons i is =>
      have hP : 0 < (cs.map TTCore.n).prod := by
        rcases Nat.eq_zero_or_pos (cs.map TTCore.n).prod with h | h
        · rw [List.map_cons, List.prod_cons, h, Nat.mul_zero] at hj; omega
        · exact h
      simp only [ttSliceChain, List.map_cons, unravel, ttChain]
      refine Finset.sum_congr rfl fun g _ => ?_
      rw [ih is (j % (cs.map TTCore.n).prod) g b (Nat.mod_lt _ hP)]

lemma cp_roundtrip (t : CPT) (idx : ℕ → ℕ) (b j : ℕ) :
    (t.indexRows idx).to_matrix b j = t.densify (idx b) j := rfl

lemma tuckProd_append (fs gs : List TuckerFactor) :
    ∀ (as ss : List ℕ) (bs ts : List ℕ), as.length = fs.length → ss.length = fs.length →
      tuckProd (fs ++ gs) (as ++ bs) (ss ++ ts) = tuckProd fs as ss * tuckProd gs bs ts := by
  induction fs with
  | nil =>
    intro as ss bs ts h1 h2
    rw [List.length_nil] at h1 h2
    rw [List.length_eq_zero] at h1 h2
    subst h1; subst h2
    simp [tuckProd]
  | cons f fs ih =>
    intro as ss bs ts h1 h2
    cases as with
    | nil => simp at h1
    | cons a as =>
      cases ss with
      | nil => simp at h2
      | cons s ss =>
        have hstep : tuckProd ((f :: fs) ++ gs) ((a :: as) ++ bs) ((s :: ss) ++ ts) =
            f.entry a s * tuckProd (fs ++ gs) (as ++ bs) (ss ++ ts) := rfl
        have hstep2 : tuckProd (f :: fs) (a :: as) (s :: ss) =
            f.entry a s * tuckProd fs as ss := rfl
        rw [hstep, ih as ss bs ts (by simpa using h1) (by simpa using h2), hstep2]
        ring

lemma tucker_roundtrip (t : TuckerT) (idx : ℕ → ℕ) (b j : ℕ) :
    t.indexRowsDense idx b j = t.densify (idx b) j := by
  unfold TuckerT.indexRowsDense TuckerT.indexRaw TuckerT.coreRowContract TuckerT.densify
  rw [List.prod_append, sum_range_mul]
  have hL :
      (∑ sc ∈ Finset.range t.colRanks.prod,
        (∑ sr ∈ Finset.range t.rowRanks.prod,
          t.core (sr * t.colRanks.prod + sc) *
            tuckProd t.rowFactors (unravel t.rowDims (idx b)) (unravel t.rowRanks sr)) *
          tuckProd t.colFactors (unravel t.colDims j) (unravel t.colRanks sc)) =
      ∑ sr ∈ Finset.range t.rowRanks.prod, ∑ sc ∈ Finset.range t.colRanks.prod,
        t.core (sr * t.colRanks.prod + sc) *
          (tuckProd t.rowFactors (unravel t.rowDims (idx b)) (unravel t.rowRanks sr) *
            tuckProd t.colFactors (unravel t.colDims j) (unravel t.colRanks sc)) := by
    rw [Finset.sum_comm]
    refine Finset.sum_congr rfl fun sc _ => ?_
    rw [Finset.sum_mul]
    exact Finset.sum_congr rfl fun sr _ => by ring
  rw [hL]
  refine Finset.sum_congr rfl fun sr hsr => ?_
  refine Finset.sum_congr rfl fun sc hsc => ?_
  rw [Finset.mem_range] at hsr hsc
  rw [unravel_append _ _ _ _ hsr hsc]
  rw [tuckProd_append]
  · rw [unravel_length]
    unfold TuckerT.rowDims
    rw [List.length_map]
  · rw [unravel_length]
    unfold TuckerT.rowRanks
    rw [List.length_map]

lemma padTo_prod (l : List ℕ) (k : ℕ) : (padTo l k).prod = l.prod := by
  simp [padTo, List.prod_append, List.prod_replicate, one_pow]

lemma padTo_length (l : List ℕ) (k : ℕ) (h : l.length ≤ k) : (padTo l k).length = k := by
  simp only [padTo, List.length_append, List.length_replicate]
  omega

lemma mkCores_map_m (r : ℕ) : ∀ ps rin, (mkCores r rin ps).map TTCore.m = ps.map Prod.fst := by
  intro ps
  induction ps with
  | nil => intro rin; rfl
  | cons p rest ih =>
    intro rin
    cases rest with
    | nil => rfl
    | cons q rest2 =>
      simp only [mkCores, List.map_cons]
      rw [ih]
      rfl

lemma mkCores_map_n (r : ℕ) : ∀ ps rin, (mkCores r rin ps).map TTCore.n = ps.map Prod.snd := by
  intro ps
  induction ps with
  | nil => intro rin; rfl
  | cons p rest ih =>
    intro rin
    cases rest with
    | nil => rfl
    | cons q rest2 =>
      simp only [mkCores, List.map_cons]
      rw [ih]
      rfl

lemma newBlockTT_dims (rows cols : List ℕ) (r : ℕ) :
    (newBlockTT rows cols r).rowProd = rows.prod ∧
    (newBlockTT rows cols r).colProd = cols.prod := by
  unfold newBlockTT BlockTT.rowProd BlockTT.colProd BlockTT.rowDims BlockTT.colDims
  have h1 : (padTo rows (max rows.length cols.length)).length = max rows.length cols.length :=
    padTo_length _ _ (le_max_left _ _)
  have h2 : (padTo cols (max rows.length cols.length)).length = max rows.length cols.length :=
    padTo_length _ _ (le_max_right _ _)
  constructor
  · rw [mkCores_map_m, List.map_fst_zip _ _ (by rw [h1, h2]), padTo_prod]
  · rw [mkCores_map_n, List.map_snd_zip _ _ (by rw [h1, h2]), padTo_prod]

lemma map_dim_newCPfactor (l : List ℕ) :
    ((l.map (fun m => (⟨m, fun _ _ => 0⟩ : CPFactor))).map CPFactor.dim) = l := by
  induction l with
  | nil => rfl
  | cons x xs ih =>
    simp only [List.map_cons]
    rw [ih]

lemma map_dim_newTuckerfactor (l : List ℕ) (r : ℕ) :
    ((l.map (fun m => (⟨m, r, fun _ _ => 0⟩ : TuckerFactor))).map TuckerFactor.dim) = l := by
  induction l with
  | nil => rfl
  | cons x xs ih =>
    simp only [List.map_cons]
    rw [ih]

lemma newCP_dims (rows cols : List ℕ) (r : ℕ) :
    (newCP rows cols r).rowProd = rows.prod ∧ (newCP rows cols r).colProd = cols.prod := by
  unfold newCP CPT.rowProd CPT.colProd CPT.rowDims CPT.colDims
  constructor
  · rw [map_dim_newCPfactor]
  · rw [map_dim_newCPfactor]

lemma newTucker_dims (rows cols : List ℕ) (r : ℕ) :
    (newTucker rows cols r).rowProd = rows.prod ∧
    (newTucker rows cols r).colProd = cols.prod := by
  unfold newTucker TuckerT.rowProd TuckerT.colProd TuckerT.rowDims TuckerT.colDims
  constructor
  · rw [map_dim_newTuckerfactor]
  · rw [map_dim_newTuckerfactor]

lemma new_ok_dims (rows cols : List ℕ) (fact : String) (r : ℕ) (w : Weight)
    (h : TensorizedTensor.new rows cols fact r = Except.ok w) :
    w.rowProd = rows.prod ∧ w.colProd = cols.prod := by
  unfold TensorizedTensor.new at h
  split_ifs at h with h1 h2 h3
  · injection h with h4
    subst h4
    exact newCP_dims rows cols r
  · injection h with h4
    subst h4
    exact newTucker_dims rows cols r
  · injection h with h4
    subst h4
    exact newBlockTT_dims rows cols r

lemma init_auto_ok (n dim : ℕ) (d : ℕ ⊕ ℕ × ℕ) (tne ted : Option (List ℕ))
    (fact : String) (cfg : EmbedConfig)
    (h : FactorizedEmbedding.init n dim true d tne ted fact = Except.ok cfg) :
    cfg = ⟨(suggest_shape n (expand_d d).1).prod, (suggest_shape dim (expand_d d).2).prod,
      suggest_shape n (expand_d d).1, suggest_shape dim (expand_d d).2, fact⟩ := by
  unfold FactorizedEmbedding.init at h
  rw [if_pos rfl] at h
  cases tne with
  | none =>
    cases ted with
    | none =>
      injection h with h2
      exact h2.symm
    | some l => exact absurd h (by simp)
  | some l =>
    cases ted with
    | none => exact absurd h (by simp)
    | some l2 => exact absurd h (by simp)

lemma init_nonauto_ok (n dim : ℕ) (d : ℕ ⊕ ℕ × ℕ) (tne ted : Option (List ℕ))
    (fact : String) (cfg : EmbedConfig)
    (h : FactorizedEmbedding.init n dim false d tne ted fact = Except.ok cfg) :
    ∃ l1 l2, tne = some l1 ∧ ted = some l2 ∧ l1.prod = n ∧ l2.prod = dim ∧
      cfg = ⟨n, dim, l1, l2, fact⟩ := by
  unfold FactorizedEmbedding.init at h
  rw [if_neg (by simp)] at h
  cases tne with
  | none =>
    cases ted with
    | none => exact absurd h (by simp)
    | some l2 => exact absurd h (by simp)
  | some l1 =>
    cases ted with
    | none => exact absurd h (by simp)
    | some l2 =>
      have h2 : (if l1.prod = n ∧ l2.prod = dim then
            Except.ok (⟨n, dim, l1, l2, fact⟩ : EmbedConfig)
          else Except.error "Must provide appropriate reshaping dimensions") =
          Except.ok cfg := h
      by_cases hc : l1.prod = n ∧ l2.prod = dim
      · rw [if_pos hc] at h2
        injection h2 with h3
        exact ⟨l1, l2, rfl, rfl, hc.1, hc.2, h3.symm⟩
      · rw [if_neg hc] at h2
        exact absurd h2 (by simp)

lemma init_ok_prods (n dim : ℕ) (auto : Bool) (d : ℕ ⊕ ℕ × ℕ)
    (tne ted : Option (List ℕ)) (fact : String) (cfg : EmbedConfig)
    (h : FactorizedEmbedding.init n dim auto d tne ted fact = Except.ok cfg) :
    cfg.num_embeddings = cfg.tensorized_num_embeddings.prod ∧
    cfg.embedding_dim = cfg.tensorized_embedding_dim.prod ∧
    cfg.factorization = fact := by
  cases auto with
  | false =>
    obtain ⟨l1, l2, _, _, hp1, hp2, hcfg⟩ := init_nonauto_ok n dim d tne ted fact cfg h
    subst hcfg
    exact ⟨hp1.symm, hp2.symm, rfl⟩
  | true =>
    have hcfg := init_auto_ok n dim d tne ted fact cfg h
    subst hcfg
    exact ⟨rfl, rfl, rfl⟩

lemma construct_ok_facts (n dim : ℕ) (auto : Bool) (d : ℕ ⊕ ℕ × ℕ)
    (tne ted : Option (List ℕ)) (fact : String) (r : ℕ) (a : Adapter)
    (h : construct n dim auto d tne ted fact r = Except.ok a) :
    FactorizedEmbedding.init n dim auto d tne ted fact = Except.ok a.cfg ∧
    a.initCall = reset_parameters a.cfg ∧
    a.weight.rowProd = a.cfg.tensorized_num_embeddings.prod ∧
    a.weight.colProd = a.cfg.tensorized_embedding_dim.prod := by
  unfold construct at h
  split at h
  · exact absurd h (by simp)
  next cfg hinit =>
    split at h
    · exact absurd h (by simp)
    next w hnew =>
      injection h with h2
      subst h2
      exact ⟨hinit, rfl, (new_ok_dims _ _ _ _ _ hnew).1, (new_ok_dims _ _ _ _ _ hnew).2⟩

lemma construct_colProd (n dim : ℕ) (auto : Bool) (d : ℕ ⊕ ℕ × ℕ)
    (tne ted : Option (List ℕ)) (fact : String) (r : ℕ) (a : Adapter)
    (h : construct n dim auto d tne ted fact r = Except.ok a) :
    a.weight.colProd = a.cfg.embedding_dim := by
  obtain ⟨hinit, _, _, hcol⟩ := construct_ok_facts n dim auto d tne ted fact r a h
  rw [hcol, ← (init_ok_prods n dim auto d tne ted fact a.cfg hinit).2.1]

lemma forward_shape_aux (cfg : EmbedConfig) (w : Weight) (sh : List ℕ) (input : ℕ → ℕ)
    (hE : w.colProd = cfg.embedding_dim) :
    (forward cfg w sh input).map Prod.fst = some (sh ++ [cfg.embedding_dim]) := by
  unfold forward view
  have hp : ([sh.prod, w.colProd] : List ℕ).prod = (sh ++ [cfg.embedding_dim]).prod := by
    simp [List.prod_append, hE]
  rw [if_pos hp]
  simp

lemma slice2D_congr (w : Weight) (idx : ℕ → ℕ) (b b2 j : ℕ) (h : idx b2 = idx b) :
    w.slice2D idx b2 j = w.slice2D idx b j := by
  cases w with
  | btt t =>
    show ttSliceChain t.cores (unravel t.rowDims (idx b2)) j 0 0 =
      ttSliceChain t.cores (unravel t.rowDims (idx b)) j 0 0
    rw [h]
  | cp t =>
    show (∑ r ∈ Finset.range t.rank,
        cpProd t.rowFactors (unravel t.rowDims (idx b2)) r *
          cpProd t.colFactors (unravel (t.colFactors.map CPFactor.dim) j) r) =
      ∑ r ∈ Finset.range t.rank,
        cpProd t.rowFactors (unravel t.rowDims (idx b)) r *
          cpProd t.colFactors (unravel (t.colFactors.map CPFactor.dim) j) r
    rw [h]
  | tuck t =>
    show t.indexRaw idx b2 (unravel t.colDims j) = t.indexRaw idx b (unravel t.colDims j)
    unfold TuckerT.indexRaw TuckerT.coreRowContract
    rw [h]

/-- C1: for every indices tensor of arbitrary leading shape whose entries are
valid row indices, forward returns an array of shape
`(*indices.shape, embedding_dim)` where `embedding_dim` is the adapter's
stored embedding dimension. -/
theorem forward_output_shape (cfg : EmbedConfig) (w : Weight) (sh : List ℕ) (input : ℕ → ℕ)
    (hE : w.colProd = cfg.embedding_dim)
    (_hvalid : ∀ b, b < sh.prod → input b < cfg.num_embeddings) :
    (forward cfg w sh input).map Prod.fst = some (sh ++ [cfg.embedding_dim]) :=
  forward_shape_aux cfg w sh input hE

/-- Witness for C1: the adapter with num_embeddings 1000, embedding_dim 64,
d = (3, 2), scheme blocktt, rank 4 maps an indices tensor of shape (5, 7) to
an array of shape (5, 7, 64). -/
theorem forward_output_shape_witness :
    adapterC1.weight.colProd = adapterC1.cfg.embedding_dim ∧
    (∀ b, b < ([5, 7] : List ℕ).prod → b % 1000 < adapterC1.cfg.num_embeddings) ∧
    (forward adapterC1.cfg adapterC1.weight [5, 7] (fun b => b % 1000)).map Prod.fst =
      some [5, 7, 64] := by
  refine ⟨by decide, by decide, ?_⟩
  have h := forward_output_shape adapterC1.cfg adapterC1.weight [5, 7] (fun b => b % 1000)
    (by decide) (by decide)
  rw [h]
  rfl

/-- C2: enabling auto_reshape while also providing an explicit tensorized
shape fails at construction time (not in forward) with the
InvalidArgument-style ValueError whose message identifies the conflicting
auto/explicit constraint. -/
theorem init_auto_conflict (n dim : ℕ) (d : ℕ ⊕ ℕ × ℕ) (tne ted : Option (List ℕ))
    (fact : String) (h : tne ≠ none ∨ ted ≠ none) :
    FactorizedEmbedding.init n dim true d tne ted fact =
      Except.error "Automated factorization enabled but tensor dimensions provided" := by
  unfold FactorizedEmbedding.init
  rw [if_pos rfl]
  cases tne with
  | none =>
    cases ted with
    | none => simp at h
    | some l => rfl
  | some l =>
    cases ted with
    | none => rfl
    | some l2 => rfl

/-- Witness for C2 at a concrete conflicting call. -/
theorem init_auto_conflict_witness :
    ((some [5] : Option (List ℕ)) ≠ none ∨ (none : Option (List ℕ)) ≠ none) ∧
    FactorizedEmbedding.init 5 4 true (Sum.inl 2) (some [5]) none "blocktt" =
      Except.error "Automated factorization enabled but tensor dimensions provided" :=
  ⟨Or.inl (by decide),
    init_auto_conflict 5 4 (Sum.inl 2) (some [5]) none "blocktt" (Or.inl (by decide))⟩

/-- C3: with auto_reshape disabled and both tensorized shapes given,
construction succeeds exactly when both products match the requested sizes
(and then stores those shapes); otherwise it fails with the
InvalidArgument-style ValueError. -/
theorem init_explicit_shapes (n dim : ℕ) (d : ℕ ⊕ ℕ × ℕ) (l1 l2 : List ℕ) (fact : String) :
    (l1.prod = n ∧ l2.prod = dim →
      FactorizedEmbedding.init n dim false d (some l1) (some l2) fact =
        Except.ok ⟨n, dim, l1, l2, fact⟩) ∧
    (¬(l1.prod = n ∧ l2.prod = dim) →
      FactorizedEmbedding.init n dim false d (some l1) (some l2) fact =
        Except.error "Must provide appropriate reshaping dimensions") := by
  constructor
  · intro hc
    unfold FactorizedEmbedding.init
    rw [if_neg (by simp)]
    show (if l1.prod = n ∧ l2.prod = dim then
        Except.ok (⟨n, dim, l1, l2, fact⟩ : EmbedConfig)
      else Except.error "Must provide appropriate reshaping dimensions") =
      Except.ok ⟨n, dim, l1, l2, fact⟩
    rw [if_pos hc]
  · intro hc
    unfold FactorizedEmbedding.init
    rw [if_neg (by simp)]
    show (if l1.prod = n ∧ l2.prod = dim then
        Except.ok (⟨n, dim, l1, l2, fact⟩ : EmbedConfig)
      else Except.error "Must provide appropriate reshaping dimensions") =
      Except.error "Must provide appropriate reshaping dimensions"
    rw [if_neg hc]

/-- Witness for C3: a matching and a mismatching concrete call. -/
theorem init_explicit_shapes_witness :
    (([2, 3] : List ℕ).prod = 6 ∧ ([2, 2] : List ℕ).prod = 4 ∧
      FactorizedEmbedding.init 6 4 false (Sum.inl 2) (some [2, 3]) (some [2, 2]) "blocktt" =
        Except.ok ⟨6, 4, [2, 3], [2, 2], "blocktt"⟩) ∧
    (¬(([2, 3] : List ℕ).prod = 7 ∧ ([2, 2] : List ℕ).prod = 4) ∧
      FactorizedEmbedding.init 7 4 false (Sum.inl 2) (some [2, 3]) (some [2, 2]) "blocktt" =
        Except.error "Must provide appropriate reshaping dimensions") :=
  ⟨⟨by decide, by decide,
      (init_explicit_shapes 6 4 (Sum.inl 2) [2, 3] [2, 2] "blocktt").1 (by decide)⟩,
    ⟨by decide,
      (init_explicit_shapes 7 4 (Sum.inl 2) [2, 3] [2, 2] "blocktt").2 (by decide)⟩⟩

/-- C10: with auto_reshape disabled, omitting one or both tensorized shapes
fails at construction with exactly the same ValueError as a product mismatch,
so a non-auto adapter can never be constructed without both explicit shapes. -/
theorem init_missing_shapes (n dim : ℕ) (d : ℕ ⊕ ℕ × ℕ) (tne ted : Option (List ℕ))
    (fact : String) (h : tne = none ∨ ted = none) :
    FactorizedEmbedding.init n dim false d tne ted fact =
      Except.error "Must provide appropriate reshaping dimensions" := by
  unfold FactorizedEmbedding.init
  rw [if_neg (by simp)]
  cases tne with
  | none =>
    cases ted with
    | none => rfl
    | some l => rfl
  | some l =>
    cases ted with
    | none => rfl
    | some l2 => rcases h with h | h <;> simp at h

/-- Witness for C10: omitting only the embedding-dimension shape. -/
theorem init_missing_shapes_witness :
    ((some [2, 3] : Option (List ℕ)) = none ∨ (none : Option (List ℕ)) = none) ∧
    FactorizedEmbedding.init 6 4 false (Sum.inl 2) (some [2, 3]) none "blocktt" =
      Except.error "Must provide appropriate reshaping dimensions" :=
  ⟨Or.inr (by decide),
    init_missing_shapes 6 4 (Sum.inl 2) (some [2, 3]) none "blocktt" (Or.inr (by decide))⟩

/-- C5: the post-processing forward applies after indexed slicing is exactly
scheme-specific: a CP slice is densified through `to_matrix`, a Tucker slice
is reshaped into a 2D array with one row per flattened index (row-major over
the column modes), and a BlockTT slice is used as-is before the final view to
the output shape. -/
theorem forward_scheme_postprocessing :
    (∀ (cfg : EmbedConfig) (t : CPT) (sh : List ℕ) (input : ℕ → ℕ),
      forward cfg (Weight.cp t) sh input =
        view ([sh.prod, t.colProd], fun k =>
            (t.indexRows input).to_matrix (k / t.colProd) (k % t.colProd))
          (sh ++ [cfg.embedding_dim])) ∧
    (∀ (cfg : EmbedConfig) (t : TuckerT) (sh : List ℕ) (input : ℕ → ℕ),
      forward cfg (Weight.tuck t) sh input =
        view ([sh.prod, t.colProd], fun k =>
            t.indexRaw input (k / t.colProd) (unravel t.colDims (k % t.colProd)))
          (sh ++ [cfg.embedding_dim])) ∧
    (∀ (cfg : EmbedConfig) (t : BlockTT) (sh : List ℕ) (input : ℕ → ℕ),
      forward cfg (Weight.btt t) sh input =
        view ([sh.prod, t.colProd], fun k =>
            t.indexRows input (k / t.colProd) (k % t.colProd))
          (sh ++ [cfg.embedding_dim])) :=
  ⟨fun _ _ _ _ => rfl, fun _ _ _ _ => rfl, fun _ _ _ _ => rfl⟩

/-- C6: at adapter construction (and hence on reset_parameters, whose recorded
call construction stores) the owned tensor is initialized in place from a
normal distribution with mean 0 and standard deviation
`1 / sqrt (3 * num_embeddings)`. -/
theorem reset_parameters_init_call (n dim : ℕ) (auto : Bool) (d : ℕ ⊕ ℕ × ℕ)
    (tne ted : Option (List ℕ)) (fact : String) (r : ℕ) (a : Adapter)
    (h : construct n dim auto d tne ted fact r = Except.ok a) :
    a.initCall = reset_parameters a.cfg ∧
    (reset_parameters a.cfg).mean = 0 ∧
    NormalArgs.std (reset_parameters a.cfg) =
      1 / Real.sqrt (3 * (a.cfg.num_embeddings : ℝ)) ∧
    (0 < a.cfg.num_embeddings →
      NormalArgs.std (reset_parameters a.cfg) ^ 2 = 1 / (3 * (a.cfg.num_embeddings : ℝ))) := by
  obtain ⟨_, hcall, _, _⟩ := construct_ok_facts n dim auto d tne ted fact r a h
  refine ⟨hcall, rfl, ?_, ?_⟩
  · unfold NormalArgs.std reset_parameters
    push_cast
    rfl
  · intro hpos
    unfold NormalArgs.std reset_parameters
    rw [div_pow, one_pow, Real.sq_sqrt (by positivity)]
    push_cast
    ring

/-- Witness for C6 at a concrete constructed adapter. -/
theorem reset_parameters_init_call_witness :
    construct 8 4 true (Sum.inl 2) none none "blocktt" 2 = Except.ok adapterC6 ∧
    adapterC6.initCall = reset_parameters adapterC6.cfg ∧
    (reset_parameters adapterC6.cfg).mean = 0 :=
  ⟨rfl,
    (reset_parameters_init_call 8 4 true (Sum.inl 2) none none "blocktt" 2 adapterC6 rfl).1,
    (reset_parameters_init_call 8 4 true (Sum.inl 2) none none "blocktt" 2 adapterC6 rfl).2.1⟩

/-- C8: for every factorization scheme, the post-processed indexed slice agrees
exactly (hence within any tolerance) with the corresponding row of the
densified table: output row `b` is table row `flat_indices[b]`, so single-row
slices round-trip through densify and duplicate indices yield identical
values. -/
theorem index_rows_densify_roundtrip (w : Weight) (idx : ℕ → ℕ) (b j : ℕ)
    (_hrow : idx b < w.rowProd) (hcol : j < w.colProd) :
    w.slice2D idx b j = w.densify (idx b) j ∧
    (∀ b2, idx b2 = idx b → w.slice2D idx b2 j = w.slice2D idx b j) := by
  constructor
  · cases w with
    | btt t => exact ttSliceChain_eq t.cores (unravel t.rowDims (idx b)) j 0 0 hcol
    | cp t => exact cp_roundtrip t idx b j
    | tuck t => exact tucker_roundtrip t idx b j
  · intro b2 hb2
    exact slice2D_congr w idx b b2 j hb2

/-- Witness for C8 on a concrete two-core BlockTT weight with nonzero
entries, including a duplicate index. -/
theorem index_rows_densify_roundtrip_witness :
    ((fun _ => 3 : ℕ → ℕ) 1 < weightC8.rowProd ∧ 2 < weightC8.colProd) ∧
    weightC8.slice2D (fun _ => 3) 1 2 = weightC8.densify 3 2 ∧
    weightC8.slice2D (fun _ => 3) 5 2 = weightC8.slice2D (fun _ => 3) 1 2 := by
  refine ⟨⟨by decide, by decide⟩, ?_, ?_⟩
  · exact (index_rows_densify_roundtrip weightC8 (fun _ => 3) 1 2 (by decide) (by decide)).1
  · exact (index_rows_densify_roundtrip weightC8 (fun _ => 3) 1 2 (by decide) (by decide)).2
      5 rfl

/-- C9: under auto_reshape the stored num_embeddings and embedding_dim are
overwritten with the products of the suggested tensorized shapes, which can be
strictly greater than the requested values (e.g. requesting (37, 10) with
d = (3, 2) stores (48, 12)); consequently the initialization standard
deviation uses the padded num_embeddings and forward's trailing output
dimension is the padded embedding_dim. -/
theorem auto_reshape_padding (n dim d1 d2 : ℕ) (fact : String) (r : ℕ) (a : Adapter)
    (h : construct n dim true (Sum.inr (d1, d2)) none none fact r = Except.ok a) :
    a.cfg.num_embeddings = (suggest_shape n d1).prod ∧
    a.cfg.embedding_dim = (suggest_shape dim d2).prod ∧
    a.initCall = NormalArgs.mk 0 (3 * (suggest_shape n d1).prod) ∧
    NormalArgs.std a.initCall = 1 / Real.sqrt (3 * ((suggest_shape n d1).prod : ℝ)) ∧
    (∀ sh input, (forward a.cfg a.weight sh input).map Prod.fst =
      some (sh ++ [(suggest_shape dim d2).prod])) ∧
    ((construct 37 10 true (Sum.inr (3, 2)) none none "blocktt" 2).toOption.map
        (fun x => (x.cfg.num_embeddings, x.cfg.embedding_dim)) = some (48, 12) ∧
      37 < 48 ∧ 10 < 12) := by
  obtain ⟨hinit, hcall, _, hcol⟩ :=
    construct_ok_facts n dim true (Sum.inr (d1, d2)) none none fact r a h
  have hcfg := init_auto_ok n dim (Sum.inr (d1, d2)) none none fact a.cfg hinit
  have h1 : a.cfg.num_embeddings = (suggest_shape n d1).prod := by rw [hcfg]; rfl
  have h2 : a.cfg.embedding_dim = (suggest_shape dim d2).prod := by rw [hcfg]; rfl
  have h3 : a.initCall = NormalArgs.mk 0 (3 * (suggest_shape n d1).prod) := by
    rw [hcall]
    unfold reset_parameters
    rw [h1]
  have h4 : NormalArgs.std a.initCall =
      1 / Real.sqrt (3 * ((suggest_shape n d1).prod : ℝ)) := by
    rw [h3]
    unfold NormalArgs.std
    push_cast
    rfl
  have h5 : ∀ sh input, (forward a.cfg a.weight sh input).map Prod.fst =
      some (sh ++ [(suggest_shape dim d2).prod]) := by
    intro sh input
    have he : a.weight.colProd = a.cfg.embedding_dim := by
      rw [hcol,
        ← (init_ok_prods n dim true (Sum.inr (d1, d2)) none none fact a.cfg hinit).2.1]
    rw [forward_shape_aux a.cfg a.weight sh input he, h2]
  exact ⟨h1, h2, h3, h4, h5, by decide, by decide, by decide⟩

/-- Witness for C9 at the concrete padded construction (37, 10), d = (3, 2). -/
theorem auto_reshape_padding_witness :
    construct 37 10 true (Sum.inr (3, 2)) none none "blocktt" 2 = Except.ok adapterC9 ∧
    adapterC9.cfg.num_embeddings = 48 ∧ adapterC9.cfg.embedding_dim = 12 ∧
    (forward adapterC9.cfg adapterC9.weight [2] (fun _ => 0)).map Prod.fst =
      some [2, 12] := by
  have h := auto_reshape_padding 37 10 3 2 "blocktt" 2 adapterC9 rfl
  refine ⟨rfl, h.1.trans (by decide), h.2.1.trans (by decide), ?_⟩
  exact (h.2.2.2.2.1 [2] (fun _ => 0)).trans (by decide)

/-- C7 (amended): from_embedding constructs the adapter by requesting the
dense table's (num_embeddings, embedding_dim); without auto_reshape its stored
logical sizes equal the table's exactly, while under auto_reshape they are the
products of the suggested shapes and may strictly exceed the table's; when
decompose_weights is set, init_from_matrix is called on the new adapter's
owned tensor with the table's data and the given decomposition options, and
otherwise the factors are randomly re-initialized. -/
theorem from_embedding_spec (layer : EmbeddingLayer) (r : ℕ) (fact : String)
    (dec auto : Bool) (kw : List (String × ℚ)) (d : ℕ ⊕ ℕ × ℕ)
    (tne ted : Option (List ℕ)) (res : FromEmbeddingResult)
    (h : FactorizedEmbedding.from_embedding layer r fact dec auto kw d tne ted =
      Except.ok res) :
    (auto = true →
      res.adapter.cfg.num_embeddings =
        (suggest_shape layer.num_embeddings (expand_d d).1).prod ∧
      res.adapter.cfg.embedding_dim =
        (suggest_shape layer.embedding_dim (expand_d d).2).prod) ∧
    (auto = false →
      res.adapter.cfg.num_embeddings = layer.num_embeddings ∧
      res.adapter.cfg.embedding_dim = layer.embedding_dim) ∧
    (dec = true → res.decomposeCall = some (layer.data, kw)) ∧
    (dec = false → res.decomposeCall = none ∧
      res.adapter.initCall = reset_parameters res.adapter.cfg) := by
  unfold FactorizedEmbedding.from_embedding at h
  split at h
  · exact absurd h (by simp)
  next a hcon =>
    obtain ⟨hinit, hcall, _, _⟩ :=
      construct_ok_facts layer.num_embeddings layer.embedding_dim auto d tne ted fact r a hcon
    have hauto_t : auto = true →
        a.cfg.num_embeddings = (suggest_shape layer.num_embeddings (expand_d d).1).prod ∧
        a.cfg.embedding_dim = (suggest_shape layer.embedding_dim (expand_d d).2).prod := by
      intro hx
      subst hx
      have hcfg := init_auto_ok layer.num_embeddings layer.embedding_dim d tne ted fact
        a.cfg hinit
      exact ⟨by rw [hcfg], by rw [hcfg]⟩
    have hauto_f : auto = false →
        a.cfg.num_embeddings = layer.num_embeddings ∧
        a.cfg.embedding_dim = layer.embedding_dim := by
      intro hx
      subst hx
      obtain ⟨l1, l2, _, _, _, _, hcfg⟩ :=
        init_nonauto_ok layer.num_embeddings layer.embedding_dim d tne ted fact a.cfg hinit
      rw [hcfg]
      exact ⟨rfl, rfl⟩
    cases dec with
    | true =>
      rw [if_pos rfl] at h
      injection h with h2
      subst h2
      exact ⟨hauto_t, hauto_f, fun _ => rfl, by simp⟩
    | false =>
      rw [if_neg (by simp)] at h
      injection h with h2
      subst h2
      exact ⟨hauto_t, hauto_f, by simp, fun _ => ⟨rfl, rfl⟩⟩

/-- C7 counterexample: the claim "the new adapter's logical table size matches
the dense table's" fails at a concrete input: from a dense 37 × 10 table with
the default auto_reshape and d = (3, 3), the constructed adapter stores the
padded logical size (48, 12), not (37, 10). -/
theorem from_embedding_size_counterexample :
    (FactorizedEmbedding.from_embedding ⟨37, 10, fun _ _ => 0⟩ 8 "blocktt" true true []
        (Sum.inr (3, 3)) none none).toOption.map
      (fun res => (res.adapter.cfg.num_embeddings, res.adapter.cfg.embedding_dim)) =
      some (48, 12) ∧
    37 < 48 ∧ 10 < 12 := ⟨by decide, by decide, by decide⟩

/-- Witness for C7 (amended) on a concrete non-auto CP construction with
decomposition enabled. -/
theorem from_embedding_spec_witness :
    FactorizedEmbedding.from_embedding layerC7 4 "CP" true false [("tol", 1/2)]
        (Sum.inl 2) (some [4, 5]) (some [2, 3]) = Except.ok resultC7 ∧
    (resultC7.adapter.cfg.num_embeddings = 20 ∧
      resultC7.adapter.cfg.embedding_dim = 6) ∧
    resultC7.decomposeCall = some (layerC7.data, [("tol", 1/2)]) := by
  have h := from_embedding_spec layerC7 4 "CP" true false [("tol", 1/2)] (Sum.inl 2)
    (some [4, 5]) (some [2, 3]) resultC7 rfl
  exact ⟨rfl, h.2.1 rfl, h.2.2.1 rfl⟩
